import Mathlib

/-!
Shallow embedding of `src/CS3100_Assn5/main.cpp` (a multi-threaded pi-digit
program): the `Task` / `TaskList` / `PieTable` data model, the worker loop
(`threadFunction`), the orchestration in `main` (queue population, thread
launch/join, final rendering), and a small interleaving model of the
queue-drain race.

Modelling conventions:
- `std::queue<Task>` is a `List Task` with the front at the head
  (`push` appends at the tail, `front` reads the head, `pop` drops the head).
- `std::unordered_map<int, unsigned int>` is an association list
  `List (Int × Nat)`; `std::unordered_map::insert({k,v})` does NOT overwrite
  an existing key (it is a no-op when the key is present), and `operator[]`
  default-constructs a `0` entry for an absent key and returns it.
- The digit computation `computePiDigit` is double-precision floating-point
  code (`std::log`, `std::fmod`, a `double` accumulator); its internals are
  outside this integer embedding, so every statement about the worker loop
  and tables is quantified over an arbitrary compute function
  `c : Int → Nat` standing for `Task::computePi`.
- Machine `int` is `Int` (no arithmetic in the modelled core can overflow:
  the loop bounds are tiny), `unsigned int` values stored in the table are
  `Nat`.
-/

set_option autoImplicit false

namespace Assn5

/-- Source: `struct Task { int id; ... }`. -/
structure Task where
  id : Int
deriving DecidableEq

/-- The queue inside `class TaskList` (`std::queue<Task> piQueue`),
front of the queue at the head of the list. -/
abbrev TaskList := List Task

namespace TaskList

/-- Source: `void push(Task task) { piQueue.push(task); }` — append at the tail. -/
def push (q : TaskList) (task : Task) : TaskList :=
  q ++ [task]

/-- Source: `bool isEmpty() { return piQueue.empty(); }`. -/
def isEmpty (q : TaskList) : Bool :=
  List.isEmpty q

/-- Source: `Task getTask() { return piQueue.front(); }` — `front()` on an empty
`std::queue` is undefined behaviour; the model returns an arbitrary
default task in that (never legitimately reached) case. -/
def getTask (q : TaskList) : Task :=
  q.headD ⟨0⟩

/-- Source: `void pop() { piQueue.pop(); }` — `pop()` on an empty `std::queue` is
undefined behaviour; the model drops the head (no-op on empty). -/
def pop (q : TaskList) : TaskList :=
  q.tail

end TaskList

/-- The map inside `class PieTable` (`std::unordered_map<int, unsigned int>
pieMap`), as an association list (entry order is the insertion order;
lookups return the first, and with this `insert` semantics only, entry
for a key). -/
abbrev PieTable := List (Int × Nat)

namespace PieTable

/-- Key lookup in `pieMap` (the `std::unordered_map` find underlying both
the presence test of `insert` and by `operator[]`). -/
def find : PieTable → Int → Option Nat
  | [], _ => none
  | (k, v) :: rest, i => if i = k then some v else find rest i

/-- Source: `void insertValue(int key, unsigned int value) { pieMap.insert({key,
value}); }` — `std::unordered_map::insert` inserts only when the key is
absent; when the key is already present it leaves the map unchanged. -/
def insertValue (m : PieTable) (key : Int) (value : Nat) : PieTable :=
  match m.find key with
  | some _ => m
  | none => m ++ [(key, value)]

/-- Source: `int get(int index) { return pieMap[index]; }` —
`std::unordered_map::operator[]` returns the stored value when the key is
present, and otherwise inserts a value-initialised (`0`) entry for the key
and returns that `0`. The model returns the read value together with the
(possibly mutated) map. -/
def get (m : PieTable) (index : Int) : Nat × PieTable :=
  match m.find index with
  | some v => (v, m)
  | none => (0, m ++ [(index, 0)])

/-- Folding `insertValue` over a list of key/value pairs (the shape of every
sequence of worker inserts). -/
def insertAll (m : PieTable) (l : List (Int × Nat)) : PieTable :=
  l.foldl (fun t p => t.insertValue p.1 p.2) m

end PieTable

/-- The queue-population loop of `main`:
`for (int i = 1; i < numDigitsPie; i++) { Task temp{ i }; taskList.push(temp); }`
— note the strict bound: indices `1 .. numDigitsPie - 1` only. -/
def loadQueue (numDigitsPie : Nat) : TaskList :=
  (List.range' 1 (numDigitsPie - 1)).foldl (fun q (i : Nat) => q.push ⟨(i : Int)⟩) []

/-- The body of the worker lambda `threadFunction`, run to completion by one
worker with exclusive access to the queue (the sequential semantics of
`while (!taskList.isEmpty()) { ... getTask(); pop(); ... insertValue(...); }`):
returns the final queue and table. `c` stands for `Task::computePi`
(i.e. `computePiDigit`). The `[]` branch is the `isEmpty()` exit; in the
other branch `getTask()` returns the front `taskTemp` and `pop()` leaves
`rest` (the lemma `threadFunction_loop` below restates the body literally
in terms of `isEmpty`/`getTask`/`pop`). -/
def threadFunction (c : Int → Nat) : TaskList → PieTable → TaskList × PieTable
  | [], table => ([], table)
  | taskTemp :: rest, table =>
    threadFunction c rest (table.insertValue taskTemp.id (c taskTemp.id))

/-- The launch-and-join loop of `main`
(`for ... threads[i] = std::thread(threadFunction, i); for ... join();`),
in the sequential semantics: the `numThreads` workers run `threadFunction`
one after another on the shared queue and table. -/
def runThreads (c : Int → Nat) : Nat → TaskList → PieTable → TaskList × PieTable
  | 0, q, t => (q, t)
  | p + 1, q, t =>
    let r := threadFunction c q t
    runThreads c p r.1 r.2

/-- Source: `int numThreads = std::thread::hardware_concurrency();` — the pool size
is the queried value itself, with no adjustment (the C++ call returns `0`
when the hardware parallelism cannot be determined). -/
def numThreads (hardwareConcurrency : Nat) : Nat :=
  hardwareConcurrency

/-- The whole run up to the join: populate the queue with `loadQueue`,
run `P` workers, return the final result table. -/
def runPool (c : Int → Nat) (numDigitsPie P : Nat) : PieTable :=
  (runThreads c P (loadQueue numDigitsPie) []).2

/-- The indices visited by the final print loop of `main`:
`for (int i = 1; i < numDigitsPie; i++) { std::cout << pieTable.get(i); }`
— again `1 .. numDigitsPie - 1`. -/
def printIndices (numDigitsPie : Nat) : List Int :=
  (List.range' 1 (numDigitsPie - 1)).map fun i => (i : Int)

/-- The digits produced by the final print loop, threading the table through
each `pieTable.get(i)` call (each call may mutate the table, since
`get` is `operator[]`). -/
def renderDigits : PieTable → List Int → List Nat × PieTable
  | t, [] => ([], t)
  | t, i :: rest =>
    let r := PieTable.get t i
    let rs := renderDigits r.2 rest
    (r.1 :: rs.1, rs.2)

/-- The final rendered value printed by `main`: `std::cout << "\n3.";` then
one decimal digit per print-loop index, i.e. the string `"3."` followed by
the digits for indices `1 .. numDigitsPie - 1` in ascending order. -/
def renderOutput (t : PieTable) (numDigitsPie : Nat) : String :=
  "3." ++ String.join (((renderDigits t (printIndices numDigitsPie)).1).map
    (fun d => toString d))

/-!
Interleaving model of the queue drain performed by the worker lambda.

One iteration of the loop in `threadFunction` touches the shared queue twice:

 1. `taskList.isEmpty()` — evaluated with NO lock held
    (`while (!taskList.isEmpty())`);
 2. `taskList.lock(); taskList.getTask(); taskList.pop(); taskList.unlock();`
    — the front-read and pop, atomic because `queueMutex` is held.

The model below runs two workers, each an automaton over these two atomic
actions, under an arbitrary schedule. `poppedEmpty` records whether some
worker ever executed its locked `getTask`/`pop` section on an empty queue —
in the C++ source that is `std::queue::front`/`pop` on an empty queue,
undefined behaviour.
-/

/-- Position of a worker inside one iteration of the drain loop. -/
inductive WorkerPhase where
  /-- about to evaluate `!taskList.isEmpty()` (no lock held) -/
  | checking
  /-- observed non-empty, about to run `lock; getTask; pop; unlock` -/
  | popping
  /-- observed empty and left the loop -/
  | finished
deriving DecidableEq

/-- Shared queue plus the control points of two workers, and a flag recording
whether a locked `getTask`/`pop` section ever ran on an empty queue. -/
structure RaceState where
  queue : TaskList
  w1 : WorkerPhase
  w2 : WorkerPhase
  poppedEmpty : Bool
deriving DecidableEq

/-- One atomic action of a single worker: either the unlocked emptiness test
or the locked front-read/pop. -/
def stepPhase (ph : WorkerPhase) (q : TaskList) (flag : Bool) :
    WorkerPhase × TaskList × Bool :=
  match ph with
  | .checking =>
      if TaskList.isEmpty q then (.finished, q, flag) else (.popping, q, flag)
  | .popping => (.checking, TaskList.pop q, flag || TaskList.isEmpty q)
  | .finished => (.finished, q, flag)

/-- Run one atomic action of the scheduled worker (`false` = worker 1,
`true` = worker 2). -/
def raceStep (s : RaceState) (w : Bool) : RaceState :=
  if w then
    let r := stepPhase s.w2 s.queue s.poppedEmpty
    { queue := r.2.1, w1 := s.w1, w2 := r.1, poppedEmpty := r.2.2 }
  else
    let r := stepPhase s.w1 s.queue s.poppedEmpty
    { queue := r.2.1, w1 := r.1, w2 := s.w2, poppedEmpty := r.2.2 }

/-- Run a finite schedule of worker actions. -/
def runRace (sched : List Bool) (s : RaceState) : RaceState :=
  sched.foldl raceStep s

/-- The retrieval sequence of a queue: repeatedly `getTask()` then `pop()`
until `isEmpty()` — the order in which tasks are handed out by the
`TaskList` interface. -/
def drainOrder (q : TaskList) : List Task :=
  if TaskList.isEmpty q then []
  else TaskList.getTask q :: drainOrder (TaskList.pop q)
termination_by q.length
decreasing_by
  cases q with
  | nil => simp [TaskList.isEmpty] at *
  | cons t rest => simp [TaskList.pop]

/-! ## Helper lemmas -/

namespace PieTable

theorem find_append_of_some {m : PieTable} {k : Int} {v : Nat}
    (h : m.find k = some v) (m' : PieTable) : (m ++ m').find k = some v := by
  induction m with
  | nil => simp [find] at h
  | cons p rest ih =>
    obtain ⟨a, b⟩ := p
    simp only [find] at h ⊢
    split at h <;> simp_all [find]

theorem find_append_of_none {m : PieTable} {k : Int}
    (h : m.find k = none) (m' : PieTable) : (m ++ m').find k = m'.find k := by
  induction m with
  | nil => simp [find]
  | cons p rest ih =>
    obtain ⟨a, b⟩ := p
    simp only [find] at h ⊢
    split at h <;> simp_all [find]

theorem insertValue_of_none {m : PieTable} {k : Int} (v : Nat)
    (h : m.find k = none) : m.insertValue k v = m ++ [(k, v)] := by
  simp [insertValue, h]

theorem insertValue_of_some {m : PieTable} {k : Int} {w : Nat} (v : Nat)
    (h : m.find k = some w) : m.insertValue k v = m := by
  simp [insertValue, h]

/-- A fold of non-overwriting inserts looks up like: first the accumulator,
then the inserted pairs in list order (first occurrence wins on both
sides). -/
theorem find_insertAll (l : List (Int × Nat)) (m : PieTable) (k : Int) :
    (insertAll m l).find k =
      match m.find k with
      | some v => some v
      | none => find l k := by
  induction l generalizing m with
  | nil => cases h : m.find k <;> simp [insertAll, h, find]
  | cons p l ih =>
    obtain ⟨a, b⟩ := p
    have step : insertAll m ((a, b) :: l) = insertAll (m.insertValue a b) l := rfl
    rw [step, ih]
    cases hma : m.find a with
    | some w =>
      rw [insertValue_of_some b hma]
      cases hmk : m.find k with
      | some v => simp
      | none =>
        have hka : k ≠ a := fun he => by rw [he, hma] at hmk; cases hmk
        simp [find, hka]
    | none =>
      rw [insertValue_of_none b hma]
      cases hmk : m.find k with
      | some v => rw [find_append_of_some hmk]
      | none =>
        rw [find_append_of_none hmk]
        by_cases hka : k = a <;> simp [find, hka]

theorem find_insertAll_nil (l : List (Int × Nat)) (k : Int) :
    (insertAll [] l).find k = find l k := by
  rw [find_insertAll]; simp [find]

theorem find_eq_none_iff {l : PieTable} {k : Int} :
    l.find k = none ↔ k ∉ l.map Prod.fst := by
  induction l with
  | nil => simp [find]
  | cons p rest ih =>
    obtain ⟨a, b⟩ := p
    by_cases hka : k = a <;> simp [find, hka, ih]

theorem mem_of_find_eq_some {l : PieTable} {k : Int} {v : Nat}
    (h : l.find k = some v) : (k, v) ∈ l := by
  induction l with
  | nil => simp [find] at h
  | cons p rest ih =>
    obtain ⟨a, b⟩ := p
    simp only [find] at h
    split at h
    · next hka => cases h; simp_all
    · simp [ih h]

theorem find_eq_some_of_mem {l : PieTable} {k : Int} {v : Nat}
    (hnd : (l.map Prod.fst).Nodup) (h : (k, v) ∈ l) : l.find k = some v := by
  induction l with
  | nil => simp at h
  | cons p rest ih =>
    obtain ⟨a, b⟩ := p
    simp only [List.map_cons, List.nodup_cons] at hnd
    rcases List.mem_cons.mp h with he | hm
    · cases he; simp [find]
    · have hka : k ≠ a := by
        intro he
        exact hnd.1 (he ▸ (List.mem_map.mpr ⟨(k, v), hm, rfl⟩))
      simp [find, hka, ih hnd.2 hm]

/-- Lookup in a key-distinct association list is invariant under
permutation. -/
theorem find_perm {l l' : PieTable} (hp : l.Perm l')
    (hnd : (l.map Prod.fst).Nodup) (k : Int) : l.find k = l'.find k := by
  have hnd' : (l'.map Prod.fst).Nodup := ((hp.map Prod.fst).nodup_iff).mp hnd
  cases h : l.find k with
  | some v =>
    exact (find_eq_some_of_mem hnd' (hp.mem_iff.mp (mem_of_find_eq_some h))).symm
  | none =>
    have : k ∉ l'.map Prod.fst := fun hm =>
      find_eq_none_iff.mp h ((hp.map Prod.fst).mem_iff.mpr hm)
    exact (find_eq_none_iff.mpr this).symm

end PieTable

theorem TaskList.foldl_push (ts : List Task) (q : TaskList) :
    ts.foldl TaskList.push q = q ++ ts := by
  induction ts generalizing q with
  | nil => simp
  | cons t ts ih => simp [TaskList.push, ih]

theorem loadQueue_eq (numDigitsPie : Nat) :
    loadQueue numDigitsPie =
      (List.range' 1 (numDigitsPie - 1)).map fun i => ⟨(i : Int)⟩ := by
  have main : ∀ (is : List Nat) (q : TaskList),
      is.foldl (fun q (i : Nat) => q.push ⟨(i : Int)⟩) q =
        q ++ is.map fun i => ⟨(i : Int)⟩ := by
    intro is
    induction is with
    | nil => simp
    | cons i is ih =>
      intro q
      rw [List.foldl_cons, ih]
      simp [TaskList.push]
  rw [loadQueue, main (List.range' 1 (numDigitsPie - 1)) [], List.nil_append]

/-- The worker loop body, literally: test `isEmpty()`, and when non-empty
take `getTask()`, `pop()` the queue, and insert the computed digit. -/
theorem threadFunction_loop (c : Int → Nat) (q : TaskList) (table : PieTable) :
    threadFunction c q table =
      if TaskList.isEmpty q then (q, table)
      else
        threadFunction c (TaskList.pop q)
          (table.insertValue (TaskList.getTask q).id (c (TaskList.getTask q).id)) := by
  cases q <;>
    simp [threadFunction, TaskList.isEmpty, TaskList.pop, TaskList.getTask]

/-- A full sequential drain by one worker: the queue ends empty and the table
has received one (non-overwriting) insert per task, in queue order. -/
theorem threadFunction_eq (c : Int → Nat) (q : TaskList) (table : PieTable) :
    threadFunction c q table =
      ([], PieTable.insertAll table (q.map fun tk => (tk.id, c tk.id))) := by
  induction q generalizing table with
  | nil => simp [threadFunction, PieTable.insertAll]
  | cons t q ih => simp [threadFunction, ih, PieTable.insertAll]

theorem runThreads_nil (c : Int → Nat) (p : Nat) (t : PieTable) :
    runThreads c p [] t = ([], t) := by
  induction p with
  | zero => rfl
  | succ p ih => simp [runThreads, threadFunction, ih]

/-- With at least one worker, the whole pool behaves like a single full
drain: the first worker empties the queue and the rest exit at once. -/
theorem runThreads_succ (c : Int → Nat) (p : Nat) (q : TaskList) (t : PieTable) :
    runThreads c (p + 1) q t = ([], (threadFunction c q t).2) := by
  have h := threadFunction_eq c q t
  simp [runThreads, h, runThreads_nil]

theorem drainOrder_eq_self (q : TaskList) : drainOrder q = q := by
  induction q with
  | nil => simp [drainOrder, TaskList.isEmpty]
  | cons t rest ih =>
    rw [drainOrder]
    simp [TaskList.isEmpty, TaskList.getTask, TaskList.pop, ih]

/-- When every printed index is stored in the table, the print loop reads
exactly the stored digits, in the order of the index list. -/
theorem renderDigits_of_find (f : Int → Nat) :
    ∀ (is : List Int) (t : PieTable),
      (∀ i ∈ is, t.find i = some (f i)) →
      (renderDigits t is).1 = is.map f := by
  intro is
  induction is with
  | nil => intro t _; simp [renderDigits]
  | cons i rest ih =>
    intro t h
    have hi : t.find i = some (f i) := h i (List.mem_cons_self i rest)
    have hrest := ih t fun j hj => h j (List.mem_cons_of_mem _ hj)
    simp [renderDigits, PieTable.get, hi, hrest]

/-- The digits printed by the final loop depend only on the lookup function
of the table (even through the mutation performed by `operator[]` on
missing keys). -/
theorem renderDigits_congr :
    ∀ (is : List Int) (t₁ t₂ : PieTable),
      (∀ k, t₁.find k = t₂.find k) →
      (renderDigits t₁ is).1 = (renderDigits t₂ is).1 := by
  intro is
  induction is with
  | nil => intro t₁ t₂ _; simp [renderDigits]
  | cons i rest ih =>
    intro t₁ t₂ h
    cases h1 : t₁.find i with
    | some v =>
      have h2 : t₂.find i = some v := (h i).symm.trans h1
      simp [renderDigits, PieTable.get, h1, h2, ih t₁ t₂ h]
    | none =>
      have h2 : t₂.find i = none := (h i).symm.trans h1
      have hnext : ∀ k, PieTable.find (t₁ ++ [(i, 0)]) k =
          PieTable.find (t₂ ++ [(i, 0)]) k := by
        intro k
        cases hk : t₁.find k with
        | some w =>
          rw [PieTable.find_append_of_some hk,
            PieTable.find_append_of_some ((h k).symm.trans hk)]
        | none =>
          rw [PieTable.find_append_of_none hk,
            PieTable.find_append_of_none ((h k).symm.trans hk)]
      simp [renderDigits, PieTable.get, h1, h2, ih _ _ hnext]

/-! ## The claims -/

/-- C1: the claim says the public drain contract of the task queue is a
single combined atomic check-and-remove (`tryPop`). The code instead
exposes `isEmpty`/`getTask`/`pop` separately, and the worker lambda
evaluates `taskList.isEmpty()` with no lock held before separately locking
and popping. This theorem exhibits a two-worker schedule, starting from a
queue holding one task, in which both workers pass the emptiness test and
the second then runs its locked `getTask`/`pop` section on an empty queue
(`std::queue::front`/`pop` on empty: undefined behaviour). -/
theorem c1_worker_drain_pops_empty_queue :
    (runRace [false, true, false, true]
      { queue := [⟨1⟩], w1 := .checking, w2 := .checking,
        poppedEmpty := false }).poppedEmpty = true := by
  decide

/-- C2: the claim says a run with digit count N fills the table with exactly
N entries, one per index in 1..N. The population loop
`for (int i = 1; i < numDigitsPie; i++)` stops one short: with
`numDigitsPie = 5` and one worker the finished table has 4 entries, none
of them for index 5 (while the program announces "5 Digits"). -/
theorem c2_table_misses_last_index :
    (runPool (fun _ => 3) 5 1).length = 4
    ∧ PieTable.find (runPool (fun _ => 3) 5 1) 5 = none
    ∧ PieTable.find (runPool (fun _ => 3) 5 1) 1 = some 3
    ∧ PieTable.find (runPool (fun _ => 3) 5 1) 4 = some 3 := by
  decide

/-- C3 counterexample: the claim says `get` on an index with no entry fails
with a KeyNotFound error, reported distinctly from a stored digit 0. In
the code `get` is `pieMap[index]`: on the empty table (index 1 certainly
absent) it returns the value 0 — the very same observable result as `get`
on a table that stores the digit 0 at index 1. -/
theorem c3_get_missing_counterexample :
    PieTable.find [] (1 : Int) = none
    ∧ (PieTable.get [] (1 : Int)).1 = 0
    ∧ (PieTable.get [] (1 : Int)).1 = (PieTable.get [((1 : Int), (0 : Nat))] 1).1 := by
  decide

/-- C3 (amended): `get` on an index with no entry does not fail: it returns
the default value 0, indistinguishable from the result of `get` on a table
that stores the digit 0 at that index. -/
theorem c3_get_missing_returns_default (t : PieTable) (i : Int)
    (h : t.find i = none) :
    (t.get i).1 = 0 ∧ (t.get i).1 = (PieTable.get (t ++ [(i, 0)]) i).1 := by
  have hg : t.get i = (0, t ++ [(i, 0)]) := by simp [PieTable.get, h]
  have h2 : PieTable.find (t ++ [(i, 0)]) i = some 0 := by
    rw [PieTable.find_append_of_none h]; simp [PieTable.find]
  refine ⟨by rw [hg], ?_⟩
  rw [hg]
  simp [PieTable.get, h2]

/-- C3 witness: the amended statement at the concrete input used by the
counterexample. -/
theorem c3_get_missing_returns_default_witness :
    (PieTable.get ([] : PieTable) (1 : Int)).1 = 0
    ∧ (PieTable.get ([] : PieTable) (1 : Int)).1 =
        (PieTable.get (([] : PieTable) ++ [((1 : Int), (0 : Nat))]) 1).1 :=
  c3_get_missing_returns_default [] 1 (by decide)

/-- C4: when the table stores a digit for every printed index, the final
rendered output is the fixed prefix "3." followed by the stored digits in
ascending index order; and the rendered output of a table built by
non-overwriting inserts of key-distinct entries is the same for any
insertion order (completion order never affects output). -/
theorem c4_render_ascending_order (numDigitsPie : Nat) (f : Int → Nat)
    (t : PieTable) (l l' : List (Int × Nat))
    (ht : ∀ i ∈ printIndices numDigitsPie, t.find i = some (f i))
    (hp : l.Perm l') (hnd : (l.map Prod.fst).Nodup) :
    renderOutput t numDigitsPie =
      "3." ++ String.join ((printIndices numDigitsPie).map fun i => toString (f i))
    ∧ renderOutput (PieTable.insertAll [] l) numDigitsPie =
        renderOutput (PieTable.insertAll [] l') numDigitsPie := by
  constructor
  · rw [renderOutput, renderDigits_of_find f _ t ht, List.map_map]
    rfl
  · rw [renderOutput, renderOutput]
    have hfind : ∀ k, PieTable.find (PieTable.insertAll [] l) k =
        PieTable.find (PieTable.insertAll [] l') k := by
      intro k
      rw [PieTable.find_insertAll_nil, PieTable.find_insertAll_nil]
      exact PieTable.find_perm hp hnd k
    rw [renderDigits_congr _ _ _ hfind]

/-- C4 witness: digits 3 and 1 stored for indices 1 and 2, digit count 3;
and the same two entries inserted in both orders. -/
theorem c4_render_ascending_order_witness :
    renderOutput [((1 : Int), 3), ((2 : Int), 1)] 3 =
      "3." ++ String.join ((printIndices 3).map fun i =>
        toString ((fun i => if i = 1 then 3 else 1) i))
    ∧ renderOutput (PieTable.insertAll [] [((1 : Int), 3), ((2 : Int), 1)]) 3 =
        renderOutput (PieTable.insertAll [] [((2 : Int), 1), ((1 : Int), 3)]) 3 :=
  c4_render_ascending_order 3 (fun i => if i = 1 then 3 else 1)
    [((1 : Int), 3), ((2 : Int), 1)]
    [((1 : Int), 3), ((2 : Int), 1)] [((2 : Int), 1), ((1 : Int), 3)]
    (by decide) (by decide) (by decide)

/-- C5: the task queue is FIFO: pushing any sequence of tasks into the empty
queue and then repeatedly taking `getTask()`/`pop()` until `isEmpty()`
retrieves the tasks in exactly the insertion order. -/
theorem c5_taskqueue_fifo (ts : List Task) :
    drainOrder (ts.foldl TaskList.push []) = ts := by
  rw [TaskList.foldl_push, List.nil_append, drainOrder_eq_self]

/-- C6 counterexample: the claim says that when the hardware parallelism
cannot be determined the pool size falls back to a default of at least 1.
`std::thread::hardware_concurrency()` returns 0 in that case, and the code
uses the value unchanged: zero workers are launched and the run proceeds,
leaving the queue untouched and the table empty. -/
theorem c6_no_fallback_counterexample :
    ¬ (1 ≤ numThreads 0)
    ∧ runThreads (fun _ => 3) (numThreads 0) (loadQueue 3) [] =
        (loadQueue 3, ([] : PieTable)) := by
  decide

/-- C6 (amended): the pool size is exactly the queried hardware parallelism,
with no fallback: when the query yields 0, zero workers run and the launch
and join loops do nothing, so the run continues with an undrained queue
and an unchanged table. -/
theorem c6_pool_size_no_fallback :
    (∀ hardwareConcurrency : Nat,
      numThreads hardwareConcurrency = hardwareConcurrency)
    ∧ ∀ (c : Int → Nat) (numDigitsPie : Nat) (t : PieTable),
        runThreads c (numThreads 0) (loadQueue numDigitsPie) t =
          (loadQueue numDigitsPie, t) :=
  ⟨fun _ => rfl, fun _ _ _ => rfl⟩

/-- C7 counterexample: the claim says `insert` overwrites an existing entry,
so that `get` returns the most recently inserted digit.
`std::unordered_map::insert` does not overwrite: after inserting 5 and
then 7 for index 1, `get(1)` returns 5, not 7. -/
theorem c7_insert_no_overwrite_counterexample :
    (PieTable.get (PieTable.insertValue (PieTable.insertValue [] 1 5) 1 7) 1).1 = 5
    ∧ (PieTable.get (PieTable.insertValue (PieTable.insertValue [] 1 5) 1 7) 1).1 ≠ 7 := by
  decide

/-- C7 (amended): `insertValue` inserts the entry when the index is absent,
and leaves the table unchanged when the index is already present, so a
subsequent `get` returns the digit of the FIRST insert for that index. -/
theorem c7_insert_first_wins (t : PieTable) (i : Int) (d : Nat) :
    (t.find i = none →
      (t.insertValue i d).find i = some d
        ∧ (PieTable.get (t.insertValue i d) i).1 = d)
    ∧ ∀ v, t.find i = some v →
        t.insertValue i d = t ∧ (PieTable.get (t.insertValue i d) i).1 = v := by
  constructor
  · intro h
    have hf : (t.insertValue i d).find i = some d := by
      rw [PieTable.insertValue_of_none d h, PieTable.find_append_of_none h]
      simp [PieTable.find]
    exact ⟨hf, by simp [PieTable.get, hf]⟩
  · intro v hv
    have he : t.insertValue i d = t := PieTable.insertValue_of_some d hv
    exact ⟨he, by simp [he, PieTable.get, hv]⟩

/-- C7 witness: fresh insert of 5 at index 1 stores 5; a second insert of 7
at index 1 leaves the table unchanged and `get(1)` still reads 5. -/
theorem c7_insert_first_wins_witness :
    ((PieTable.insertValue ([] : PieTable) 1 5).find 1 = some 5
      ∧ (PieTable.get (PieTable.insertValue ([] : PieTable) 1 5) 1).1 = 5)
    ∧ (PieTable.insertValue [((1 : Int), (5 : Nat))] 1 7 = [((1 : Int), (5 : Nat))]
      ∧ (PieTable.get (PieTable.insertValue [((1 : Int), (5 : Nat))] 1 7) 1).1 = 5) :=
  ⟨(c7_insert_first_wins [] 1 5).1 (by decide),
   (c7_insert_first_wins [((1 : Int), (5 : Nat))] 1 7).2 5 (by decide)⟩

/-- C8: every worker terminates: a worker loop run on any queue ends with
the queue drained empty, and with at least one worker the whole
launch-and-join sequence ends with an empty queue (every later worker
observes the empty queue and exits at once), so the join completes. -/
theorem c8_workers_terminate (c : Int → Nat) (P : Nat) (q : TaskList)
    (t : PieTable) (hP : 1 ≤ P) :
    (threadFunction c q t).1 = [] ∧ (runThreads c P q t).1 = [] := by
  refine ⟨by rw [threadFunction_eq], ?_⟩
  cases P with
  | zero => exact absurd hP (by omega)
  | succ p => rw [runThreads_succ]

/-- C8 witness: one worker, one queued task. -/
theorem c8_workers_terminate_witness :
    (threadFunction (fun _ => 0) ([⟨1⟩] : TaskList) ([] : PieTable)).1 = []
    ∧ (runThreads (fun _ => 0) 1 ([⟨1⟩] : TaskList) ([] : PieTable)).1 = [] :=
  c8_workers_terminate (fun _ => 0) 1 [⟨1⟩] [] (by decide)

/-- C10: `get` on an index with no entry is not read-only: it returns 0 and
hands back the table extended with a default entry `(index, 0)` — the
table is changed, and the new entry stores the digit 0, so a missing digit
is indistinguishable from a stored digit 0. -/
theorem c10_get_inserts_default (t : PieTable) (i : Int)
    (h : t.find i = none) :
    t.get i = (0, t ++ [(i, 0)])
    ∧ (t.get i).2 ≠ t
    ∧ PieTable.find (t.get i).2 i = some 0 := by
  have hg : t.get i = (0, t ++ [(i, 0)]) := by simp [PieTable.get, h]
  refine ⟨hg, ?_, ?_⟩
  · intro he
    rw [hg] at he
    have hlen := congrArg List.length he
    simp at hlen
  · rw [hg]
    simpa using PieTable.find_append_of_none h [(i, 0)] |>.trans (by simp [PieTable.find])

/-- C10 witness: `get(1)` on the empty table. -/
theorem c10_get_inserts_default_witness :
    PieTable.get ([] : PieTable) 1 = (0, ([] : PieTable) ++ [((1 : Int), (0 : Nat))])
    ∧ (PieTable.get ([] : PieTable) 1).2 ≠ ([] : PieTable)
    ∧ PieTable.find (PieTable.get ([] : PieTable) 1).2 1 = some 0 :=
  c10_get_inserts_default [] 1 (by decide)

end Assn5
